import Mathlib

/-!
Shallow embedding of `src/model/memory_network_bidir.py` (`RecurrentEncoder`
and `Model`).

Machine reals are modelled by `ℚ`.  The learned components — the `Fork`
linear maps feeding the recurrent gates, the LSTM transition of each
direction, the `ContextEmbedder` and the `rec_to_output` MLP — are parameters
of the embedding, since their behaviour is learned weight data, not program
text.  theano's `exp` (inside the `Softmax` brick) and `tensor.sqrt` are
likewise abstracted as function parameters `e` and `sq`; theorems that need
them assume exactly the properties the real functions have (positivity of
`exp`; `sq x ^ 2 = x` at the points where `sqrt` is applied to a perfect
square, so that a concrete witness can evaluate).

Batches are per-example indexed (`Fin B → TrajExample ctx`): every tensor
operation of the source acts row-wise over the batch axis, and the transpose
`latitude.T` merely moves the time axis first for the recurrent scan, so a
per-example list over time is a faithful image of the `(batch × time)`
arrays.
-/

/-- numpy/theano integer indexing into the leading axis: a negative index `i`
with `-len ≤ i < 0` addresses `len + i`; realized with `emod` (which agrees
with that convention on the in-range window), returning `dflt` on an empty
list. -/
def thGet {α : Type} (dflt : α) (l : List α) (i : ℤ) : α :=
  if h : l.length = 0 then dflt
  else
    l.get ⟨(i % (l.length : ℤ)).toNat, by
      have hpos : (0 : ℤ) < (l.length : ℤ) := by
        exact_mod_cast Nat.pos_of_ne_zero h
      have h1 : 0 ≤ i % (l.length : ℤ) := Int.emod_nonneg i (by omega)
      have h2 : i % (l.length : ℤ) < (l.length : ℤ) := Int.emod_lt_of_pos i hpos
      omega⟩

/-- `tensor.cast(x, 'int64')` on a scalar: truncation toward zero. -/
def toInt64 (q : ℚ) : ℤ := if 0 ≤ q then ⌊q⌋ else ⌈q⌉

/-- A real vector of fixed dimension. -/
abbrev Vec (d : ℕ) : Type := Fin d → ℚ

/-- An LSTM recurrent state: hidden states and cells. -/
abbrev LSTMState (d : ℕ) : Type := Vec d × Vec d

/-- One example (row) of a trajectory batch: per-time lists drawn from the
`(batch × time)` arrays `latitude`, `longitude`, `latitude_mask`, and a
`context` value packing the context-feature keys consumed by the
`ContextEmbedder`. -/
structure TrajExample (ctx : Type) where
  latitude : List ℚ
  longitude : List ℚ
  latitude_mask : List ℚ
  context : ctx

/-- The learned/ambient parameters of one `RecurrentEncoder`:
the `data.train_gps_mean` / `data.train_gps_std` constants, the `Fork`
(linear maps from the stacked 2-channel coordinate input to the gate
inputs, dimension `k`), the masked LSTM transition of the forward and the
backward direction (state dimension `d` = `rec_state_dim`), the context
embedder, and the `rec_to_output` MLP applied to the concatenation of the
two extracted path components with the embeddings (output dimension `R`). -/
structure EncParams (d k R : ℕ) (ctx E : Type) where
  meanLat : ℚ
  meanLon : ℚ
  stdLat : ℚ
  stdLon : ℚ
  fork : ℚ × ℚ → Vec k
  stepF : LSTMState d → Vec k → LSTMState d
  stepB : LSTMState d → Vec k → LSTMState d
  context_embedder : ctx → E
  rec_to_output : Vec d → Vec d → E → Vec R

/-- One masked recurrent step, as the blocks `@recurrent` wrapper performs it:
`next = mask * step(state, input) + (1 - mask) * state`, applied to states and
cells alike. -/
def maskedStep {d k : ℕ} (step : LSTMState d → Vec k → LSTMState d)
    (s : LSTMState d) (x : Vec k) (m : ℚ) : LSTMState d :=
  (fun i => m * (step s x).1 i + (1 - m) * s.1 i,
   fun i => m * (step s x).2 i + (1 - m) * s.2 i)

/-- The masked recurrent scan: the list of states after each timestep (the
initial state is not part of the output, matching the `(time, batch, dim)`
states output of `rec.apply`). -/
def scanRec {d k : ℕ} (step : LSTMState d → Vec k → LSTMState d) :
    LSTMState d → List (Vec k × ℚ) → List (LSTMState d)
  | _, [] => []
  | s, xm :: rest =>
      maskedStep step s xm.1 xm.2 :: scanRec step (maskedStep step s xm.1 xm.2) rest

/-- `rec_in`: latitude and longitude standardized with the fixed train
mean/std and stacked into a 2-channel per-timestep input
(`tensor.concatenate((latitude[:, :, None], longitude[:, :, None]), axis=2)`). -/
def RecurrentEncoder.recIn {d k R : ℕ} {ctx E : Type}
    (p : EncParams d k R ctx E) (ex : TrajExample ctx) : List (ℚ × ℚ) :=
  List.zip (ex.latitude.map fun v => (v - p.meanLat) / p.stdLat)
           (ex.longitude.map fun v => (v - p.meanLon) / p.stdLon)

/-- `self.fork.apply(rec_in)`: the per-timestep gate inputs. -/
def RecurrentEncoder.forkedIn {d k R : ℕ} {ctx E : Type}
    (p : EncParams d k R ctx E) (ex : TrajExample ctx) : List (Vec k) :=
  (RecurrentEncoder.recIn p ex).map p.fork

/-- The all-zero initial LSTM state (blocks default initial states). -/
def RecurrentEncoder.zeroState {d : ℕ} : LSTMState d := (fun _ => 0, fun _ => 0)

/-- The forward-direction hidden-state sequence: the `[:, :rec_state_dim]`
slice of `path = self.rec.apply(self.fork.apply(rec_in), mask=latitude_mask)[0]`
(the `Bidirectional` brick concatenates forward before backward along the last
axis; `[0]` selects the states, dropping the cells). -/
def RecurrentEncoder.pathFwd {d k R : ℕ} {ctx E : Type}
    (p : EncParams d k R ctx E) (ex : TrajExample ctx) : List (Vec d) :=
  (scanRec p.stepF RecurrentEncoder.zeroState
    ((RecurrentEncoder.forkedIn p ex).zip ex.latitude_mask)).map Prod.fst

/-- The backward-direction hidden-state sequence: the `[:, -rec_state_dim:]`
slice of `path`.  The `Bidirectional` brick runs its second child on the
reversed sequence and mask and reverses the resulting state sequence. -/
def RecurrentEncoder.pathBwd {d k R : ℕ} {ctx E : Type}
    (p : EncParams d k R ctx E) (ex : TrajExample ctx) : List (Vec d) :=
  ((scanRec p.stepB RecurrentEncoder.zeroState
    (((RecurrentEncoder.forkedIn p ex).zip ex.latitude_mask).reverse)).map Prod.fst).reverse

/-- `last_id = tensor.cast(latitude_mask.sum(axis=0) - 1, dtype='int64')`
for one example (after the transpose, axis 0 is time, so the sum is this
example's mask sum). -/
def RecurrentEncoder.last_id {ctx : Type} (ex : TrajExample ctx) : ℤ :=
  toInt64 (ex.latitude_mask.sum - 1)

/-- `path_representation = (path[0][:, -rec_state_dim:],
path[last_id - 1, tensor.arange(last_id.shape[0])][:, :rec_state_dim])`:
the backward state of the first timestep paired with the forward state at
index `last_id - 1`. -/
def RecurrentEncoder.path_representation {d k R : ℕ} {ctx E : Type}
    (p : EncParams d k R ctx E) (ex : TrajExample ctx) : Vec d × Vec d :=
  (thGet (fun _ => 0) (RecurrentEncoder.pathBwd p ex) 0,
   thGet (fun _ => 0) (RecurrentEncoder.pathFwd p ex) (RecurrentEncoder.last_id ex - 1))

/-- `RecurrentEncoder.apply`: the two path components are concatenated with
the context embeddings and passed through the `rec_to_output` MLP. -/
def RecurrentEncoder.apply {d k R : ℕ} {ctx E : Type}
    (p : EncParams d k R ctx E) (ex : TrajExample ctx) : Vec R :=
  p.rec_to_output (RecurrentEncoder.path_representation p ex).1
                  (RecurrentEncoder.path_representation p ex).2
                  (p.context_embedder ex.context)

/-- `self.rec_inputs = ['latitude', 'longitude', 'latitude_mask']`. -/
def RecurrentEncoder.rec_inputs : List String :=
  ["latitude", "longitude", "latitude_mask"]

/-- `self.inputs = self.context_embedder.inputs + self.rec_inputs`, as a
function of the context embedder's declared input names. -/
def RecurrentEncoder.inputs (ctxInputs : List String) : List String :=
  ctxInputs ++ RecurrentEncoder.rec_inputs

/-- `self.inputs = self.prefix_encoder.inputs
+ ['candidate_' + k for k in self.candidate_encoder.inputs]`, as a function of
the two embedders' declared context input names. -/
def Model.inputs (pCtxInputs cCtxInputs : List String) : List String :=
  RecurrentEncoder.inputs pCtxInputs
    ++ (RecurrentEncoder.inputs cCtxInputs).map (fun k => "candidate_" ++ k)

/-- `predict.property('inputs')` returns `self.inputs`. -/
def Model.predict_inputs (pCtxInputs cCtxInputs : List String) : List String :=
  Model.inputs pCtxInputs cCtxInputs

/-- `cost.property('inputs')` returns
`self.inputs + ['destination_latitude', 'destination_longitude']`. -/
def Model.cost_inputs (pCtxInputs cCtxInputs : List String) : List String :=
  Model.inputs pCtxInputs cCtxInputs ++ ["destination_latitude", "destination_longitude"]

/-- The theano row softmax (`Softmax` brick): `exp(x_j) / Σ_k exp(x_k)`, with
`e` abstracting `exp`. -/
def Softmax.apply {C : ℕ} (e : ℚ → ℚ) (x : Fin C → ℚ) : Fin C → ℚ :=
  fun j => e (x j) / ∑ k, e (x k)

/-- `prefix_representation = self.prefix_encoder.apply(**prefix inputs)`:
`pe` stands for the prefix encoder's `apply`. -/
def Model.pfx_representation {B R : ℕ} {ctx : Type}
    (pe : TrajExample ctx → Vec R) (pfx : Fin B → TrajExample ctx) : Fin B → Vec R :=
  fun b => pe (pfx b)

/-- `candidate_representation = self.prefix_encoder.apply(**candidate inputs)`:
note the source invokes the PREFIX encoder's `apply` on the `candidate_`-keyed
inputs, so the parameter here is again `pe`. -/
def Model.candidate_representation_raw {C R : ℕ} {ctx : Type}
    (pe : TrajExample ctx → Vec R) (cand : Fin C → TrajExample ctx) : Fin C → Vec R :=
  fun c => pe (cand c)

/-- Row-wise L2 normalization:
`x / tensor.sqrt((x ** 2).sum(axis=1, keepdims=True))`, with `sq` abstracting
`tensor.sqrt`. -/
def Model.normalizeRows {C R : ℕ} (sq : ℚ → ℚ) (v : Fin C → Vec R) : Fin C → Vec R :=
  fun c r => v c r / sq (∑ j, v c j ^ 2)

/-- The candidate representation used for scoring: L2-normalized when
`config.normalize_representation` is set. -/
def Model.candidate_representation {C R : ℕ} {ctx : Type} (nf : Bool) (sq : ℚ → ℚ)
    (pe : TrajExample ctx → Vec R) (cand : Fin C → TrajExample ctx) : Fin C → Vec R :=
  if nf then Model.normalizeRows sq (Model.candidate_representation_raw pe cand)
  else Model.candidate_representation_raw pe cand

/-- `similarity_score = tensor.dot(prefix_representation,
candidate_representation.T)`. -/
def Model.similarity_score {B C R : ℕ} {ctx : Type} (nf : Bool) (sq : ℚ → ℚ)
    (pe : TrajExample ctx → Vec R)
    (pfx : Fin B → TrajExample ctx) (cand : Fin C → TrajExample ctx) : Fin B → Fin C → ℚ :=
  fun b c => ∑ r, Model.pfx_representation pe pfx b r
                  * Model.candidate_representation nf sq pe cand c r

/-- `similarity = self.softmax.apply(similarity_score)` (row-wise). -/
def Model.similarity {B C R : ℕ} {ctx : Type} (nf : Bool) (e sq : ℚ → ℚ)
    (pe : TrajExample ctx → Vec R)
    (pfx : Fin B → TrajExample ctx) (cand : Fin C → TrajExample ctx) : Fin B → Fin C → ℚ :=
  fun b => Softmax.apply e (Model.similarity_score nf sq pe pfx cand b)

/-- `candidate_last = tensor.cast(candidate_mask.sum(axis=1) - 1, 'int64')`
for one candidate example. -/
def Model.candidate_last {ctx : Type} (ex : TrajExample ctx) : ℤ :=
  toInt64 (ex.latitude_mask.sum - 1)

/-- `candidate_destination`: per candidate, the pair
`(candidate_latitude[c, candidate_last[c]], candidate_longitude[c, candidate_last[c]])`. -/
def Model.candidate_destination {C : ℕ} {ctx : Type}
    (cand : Fin C → TrajExample ctx) : Fin C → Fin 2 → ℚ :=
  fun c => ![thGet 0 (cand c).latitude (Model.candidate_last (cand c)),
             thGet 0 (cand c).longitude (Model.candidate_last (cand c))]

/-- `Model.predict`: `tensor.dot(similarity, candidate_destination)`.
The model owns both encoders (`pe` = prefix encoder's `apply`, `ce` =
candidate encoder's `apply`), but the body routes BOTH representation
computations through `pe`, exactly as the source does. -/
def Model.predict {B C R : ℕ} {ctx : Type} (nf : Bool) (e sq : ℚ → ℚ)
    (pe ce : TrajExample ctx → Vec R)
    (pfx : Fin B → TrajExample ctx) (cand : Fin C → TrajExample ctx) : Fin B → Fin 2 → ℚ :=
  fun b i => ∑ c, Model.similarity nf e sq pe pfx cand b c
                  * Model.candidate_destination cand c i

/-- The prediction pipeline with an explicit choice of encoder for each side,
following the spec's description (prefix representations from the prefix
encoder, candidate representations from the candidate encoder `encC`).  This
is the contrast definition for claim C2; `Model.predict` above is translated
from the source, whose candidate side calls `self.prefix_encoder.apply`. -/
def Model.predictWithEncoders {B C R : ℕ} {ctx : Type} (nf : Bool) (e sq : ℚ → ℚ)
    (encP encC : TrajExample ctx → Vec R)
    (pfx : Fin B → TrajExample ctx) (cand : Fin C → TrajExample ctx) : Fin B → Fin 2 → ℚ :=
  fun b i =>
    let pRep : Fin B → Vec R := fun b2 => encP (pfx b2)
    let cRepRaw : Fin C → Vec R := fun c => encC (cand c)
    let cRep : Fin C → Vec R :=
      if nf then (fun c r => cRepRaw c r / sq (∑ j, cRepRaw c j ^ 2)) else cRepRaw
    let score : Fin B → Fin C → ℚ := fun b2 c => ∑ r, pRep b2 r * cRep c r
    ∑ c, Softmax.apply e (score b) c * Model.candidate_destination cand c i

/-- Contrast definition from the spec's words for claim C10 (not in the
source): the symmetric cosine similarity, in which BOTH sides are
L2-normalized before the dot product. -/
def Model.cosine_similarity_score {B C R : ℕ} {ctx : Type} (sq : ℚ → ℚ)
    (pe : TrajExample ctx → Vec R)
    (pfx : Fin B → TrajExample ctx) (cand : Fin C → TrajExample ctx) : Fin B → Fin C → ℚ :=
  fun b c => ∑ r,
    (Model.pfx_representation pe pfx b r
        / sq (∑ j, Model.pfx_representation pe pfx b j ^ 2))
      * (Model.candidate_representation_raw pe cand c r
        / sq (∑ j, Model.candidate_representation_raw pe cand c j ^ 2))

/-- A mask array is binary: every entry is 0 or 1. -/
def IsBinary (l : List ℚ) : Prop := ∀ x ∈ l, x = 0 ∨ x = 1

/-! Concrete instances used by counterexamples and witnesses. -/

/-- A concrete encoder parameterization (`rec_state_dim = 1`, gate dimension 1,
output dimension 1): identity standardization, a forward LSTM transition that
increments its hidden state by one each real step (so the forward state after
`t+1` valid steps is `t+1`), an identity-ish backward transition, and an
output MLP that returns the extracted forward component. -/
def cexP : EncParams 1 1 1 Unit Unit :=
  ⟨0, 0, 1, 1, fun _ _ => 0,
   fun s _ => (fun _ => s.1 0 + 1, s.2),
   fun s _ => s,
   fun _ => (),
   fun _ f _ => f⟩

/-- A concrete example with mask row `[1,1,1,0,0]` (three valid positions,
contiguous prefix of 1s). -/
def cexEx : TrajExample Unit :=
  ⟨[0, 0, 0, 0, 0], [0, 0, 0, 0, 0], [1, 1, 1, 0, 0], ()⟩

/-- A trivial one-point example with a single valid position at (5, 7). -/
def exW : TrajExample Unit := ⟨[5], [7], [1], ()⟩

/-- A constant-zero representation function (encoder stand-in). -/
def zeroEnc : TrajExample Unit → Vec 1 := fun _ _ => 0

/-- A constant positive function standing in for `exp` in witnesses. -/
def oneFun : ℚ → ℚ := fun _ => 1

/-- An encoder stand-in that reads the first latitude value. -/
def wEnc : TrajExample Unit → Vec 1 := fun ex _ => thGet 0 ex.latitude 0

/-- One-prefix batch whose representation under `wEnc` is `(2)`. -/
def c10pfx : Fin 1 → TrajExample Unit := fun _ => ⟨[2], [0], [1], ()⟩

/-- One-candidate batch whose representation under `wEnc` is `(3)`. -/
def c10cand : Fin 1 → TrajExample Unit := fun _ => ⟨[3], [0], [1], ()⟩

/-- A square-root stand-in that is exact on the squares appearing in the
`c10pfx`/`c10cand` computations (`sqrt 9 = 3`, `sqrt 4 = 2`). -/
def c10sq : ℚ → ℚ := fun x => if x = 9 then 3 else if x = 4 then 2 else 1

/-- Three single-point candidates with destinations (1,0), (2,0), (6,0). -/
def cand3 : Fin 3 → TrajExample Unit :=
  ![⟨[1], [0], [1], ()⟩, ⟨[2], [0], [1], ()⟩, ⟨[6], [0], [1], ()⟩]

/-- A binary list sums to its number of 1 entries. -/
theorem sum_eq_count_of_isBinary {l : List ℚ} (h : IsBinary l) :
    l.sum = (l.count 1 : ℚ) := by
  induction l with
  | nil => simp
  | cons x xs ih =>
    have hx := h x (List.mem_cons_self x xs)
    have hxs : IsBinary xs := fun y hy => h y (List.mem_cons_of_mem _ hy)
    rcases hx with h0 | h1
    · subst h0
      rw [List.sum_cons, List.count_cons, ih hxs]
      norm_num
    · subst h1
      rw [List.sum_cons, List.count_cons, ih hxs]
      simp
      ring

/-- Truncation toward zero is the identity on integers. -/
theorem toInt64_intCast (n : ℤ) : toInt64 ((n : ℚ)) = n := by
  unfold toInt64
  split
  · exact Int.floor_intCast n
  · exact Int.ceil_intCast n

/-- Under a binary mask, `last_id` is the number of valid positions minus 1. -/
theorem last_id_eq_count {ctx : Type} (ex : TrajExample ctx)
    (hb : IsBinary ex.latitude_mask) :
    RecurrentEncoder.last_id ex = (ex.latitude_mask.count 1 : ℤ) - 1 := by
  unfold RecurrentEncoder.last_id
  rw [sum_eq_count_of_isBinary hb]
  rw [show ((ex.latitude_mask.count 1 : ℚ)) - 1
      = (((ex.latitude_mask.count 1 : ℤ) - 1 : ℤ) : ℚ) by push_cast; ring]
  exact toInt64_intCast _

/-- Under a binary mask, `candidate_last` is the number of valid positions
minus 1. -/
theorem candidate_last_eq_count {ctx : Type} (ex : TrajExample ctx)
    (hb : IsBinary ex.latitude_mask) :
    Model.candidate_last ex = (ex.latitude_mask.count 1 : ℤ) - 1 :=
  last_id_eq_count ex hb

/-- Softmax entries are nonnegative when the exponential is positive. -/
theorem Softmax.apply_nonneg {C : ℕ} (e : ℚ → ℚ) (x : Fin C → ℚ)
    (he : ∀ y : ℚ, 0 < e y) (j : Fin C) : 0 ≤ Softmax.apply e x j := by
  unfold Softmax.apply
  exact div_nonneg (he (x j)).le (Finset.sum_nonneg fun k _ => (he (x k)).le)

/-- Softmax rows sum to 1 when the exponential is positive and the row is
nonempty. -/
theorem Softmax.sum_apply {C : ℕ} (e : ℚ → ℚ) (x : Fin C → ℚ)
    (he : ∀ y : ℚ, 0 < e y) (hC : 0 < C) : ∑ j, Softmax.apply e x j = 1 := by
  have hne : (Finset.univ : Finset (Fin C)).Nonempty := ⟨⟨0, hC⟩, Finset.mem_univ _⟩
  have hD : 0 < ∑ k, e (x k) := Finset.sum_pos (fun k _ => he (x k)) hne
  unfold Softmax.apply
  rw [← Finset.sum_div, div_self hD.ne']

/-- C1 counterexample: for the concrete encoder `cexP` and the example `cexEx`
with mask row [1,1,1,0,0] (mask sum 3, last valid index 2), the extracted
forward-direction component of the representation is the forward hidden state
at time index 1 (value 2), NOT the forward hidden state at time index
`mask sum - 1 = 2` (value 3): the claim fails as stated. -/
theorem C1_counterexample :
    (RecurrentEncoder.path_representation cexP cexEx).2 0 = 2 ∧
    thGet (fun _ => 0) (RecurrentEncoder.pathFwd cexP cexEx)
        (RecurrentEncoder.last_id cexEx) 0 = 3 ∧
    ¬ (RecurrentEncoder.path_representation cexP cexEx).2
        = thGet (fun _ => 0) (RecurrentEncoder.pathFwd cexP cexEx)
            (RecurrentEncoder.last_id cexEx) := by
  refine ⟨?_, ?_, fun h => ?_⟩
  · norm_num [RecurrentEncoder.path_representation, RecurrentEncoder.pathFwd,
      RecurrentEncoder.forkedIn, RecurrentEncoder.recIn, RecurrentEncoder.zeroState,
      RecurrentEncoder.last_id, toInt64, scanRec, maskedStep, thGet, cexP, cexEx]
  · norm_num [RecurrentEncoder.pathFwd,
      RecurrentEncoder.forkedIn, RecurrentEncoder.recIn, RecurrentEncoder.zeroState,
      RecurrentEncoder.last_id, toInt64, scanRec, maskedStep, thGet, cexP, cexEx]
    rfl
  · have h2 : (RecurrentEncoder.path_representation cexP cexEx).2 0
        = thGet (fun _ => 0) (RecurrentEncoder.pathFwd cexP cexEx)
            (RecurrentEncoder.last_id cexEx) 0 := congrFun h 0
    rw [show (RecurrentEncoder.path_representation cexP cexEx).2 0 = 2 by
        norm_num [RecurrentEncoder.path_representation, RecurrentEncoder.pathFwd,
          RecurrentEncoder.forkedIn, RecurrentEncoder.recIn, RecurrentEncoder.zeroState,
          RecurrentEncoder.last_id, toInt64, scanRec, maskedStep, thGet, cexP, cexEx]] at h2
    rw [show thGet (fun _ => 0) (RecurrentEncoder.pathFwd cexP cexEx)
          (RecurrentEncoder.last_id cexEx) 0 = 3 by
        norm_num [RecurrentEncoder.pathFwd,
          RecurrentEncoder.forkedIn, RecurrentEncoder.recIn, RecurrentEncoder.zeroState,
          RecurrentEncoder.last_id, toInt64, scanRec, maskedStep, thGet, cexP, cexEx]
        rfl] at h2
    norm_num at h2

/-- C1 (amended): in `RecurrentEncoder.apply`, for every binary mask row the
extracted forward-direction component of the representation equals the forward
hidden state at timestep index equal to the mask's count of 1s minus TWO (one
step before the last valid index), under theano negative-index wraparound when
fewer than two positions are valid. -/
theorem C1_extraction_one_before_last_valid {d k R : ℕ} {ctx E : Type}
    (p : EncParams d k R ctx E) (ex : TrajExample ctx)
    (hb : IsBinary ex.latitude_mask) :
    (RecurrentEncoder.path_representation p ex).2
      = thGet (fun _ => 0) (RecurrentEncoder.pathFwd p ex)
          ((ex.latitude_mask.count 1 : ℤ) - 2) := by
  show thGet (fun _ => 0) (RecurrentEncoder.pathFwd p ex)
      (RecurrentEncoder.last_id ex - 1) = _
  rw [last_id_eq_count ex hb]
  congr 1
  ring

/-- C1 witness: the amended theorem at the concrete encoder and example. -/
theorem C1_witness :
    IsBinary cexEx.latitude_mask ∧
    (RecurrentEncoder.path_representation cexP cexEx).2
      = thGet (fun _ => 0) (RecurrentEncoder.pathFwd cexP cexEx)
          ((cexEx.latitude_mask.count 1 : ℤ) - 2) :=
  ⟨by simp [IsBinary, cexEx],
   C1_extraction_one_before_last_valid cexP cexEx (by simp [IsBinary, cexEx])⟩

/-- C7: for every binary mask row, if at least one position is valid then the
last-valid-index computations of `RecurrentEncoder.apply` (`last_id`) and of
`Model.predict`'s candidate-destination extraction (`candidate_last`) are
nonnegative and in range; a row with zero valid positions yields -1. -/
theorem C7_last_index_range {ctx : Type} (ex : TrajExample ctx)
    (hb : IsBinary ex.latitude_mask) :
    (1 ≤ ex.latitude_mask.count 1 →
        (0 ≤ RecurrentEncoder.last_id ex
          ∧ RecurrentEncoder.last_id ex < (ex.latitude_mask.length : ℤ))
      ∧ (0 ≤ Model.candidate_last ex
          ∧ Model.candidate_last ex < (ex.latitude_mask.length : ℤ)))
    ∧ (ex.latitude_mask.count 1 = 0 →
        RecurrentEncoder.last_id ex = -1 ∧ Model.candidate_last ex = -1) := by
  have hle : ex.latitude_mask.count 1 ≤ ex.latitude_mask.length :=
    List.count_le_length 1 ex.latitude_mask
  rw [last_id_eq_count ex hb, candidate_last_eq_count ex hb]
  omega

/-- C7 witness: the range theorem at the concrete example with mask
[1,1,1,0,0]. -/
theorem C7_witness :
    IsBinary cexEx.latitude_mask ∧ 1 ≤ cexEx.latitude_mask.count 1 ∧
    ((0 ≤ RecurrentEncoder.last_id cexEx
        ∧ RecurrentEncoder.last_id cexEx < (cexEx.latitude_mask.length : ℤ))
     ∧ (0 ≤ Model.candidate_last cexEx
        ∧ Model.candidate_last cexEx < (cexEx.latitude_mask.length : ℤ))) :=
  ⟨by simp [IsBinary, cexEx], by norm_num [cexEx],
   (C7_last_index_range cexEx (by simp [IsBinary, cexEx])).1 (by norm_num [cexEx])⟩

/-- C8: the declared input-name lists: `RecurrentEncoder.inputs` is the
context embedder's inputs plus the three recurrent keys; `predict`'s declared
inputs are the prefix encoder's inputs followed by the candidate encoder's
inputs each prefixed with "candidate_"; `cost`'s declared inputs are
`predict`'s inputs plus the two ground-truth destination keys. -/
theorem C8_declared_inputs (pCtxInputs cCtxInputs : List String) :
    RecurrentEncoder.inputs pCtxInputs
        = pCtxInputs ++ ["latitude", "longitude", "latitude_mask"] ∧
    Model.predict_inputs pCtxInputs cCtxInputs
        = RecurrentEncoder.inputs pCtxInputs
            ++ (RecurrentEncoder.inputs cCtxInputs).map (fun k => "candidate_" ++ k) ∧
    Model.cost_inputs pCtxInputs cCtxInputs
        = Model.predict_inputs pCtxInputs cCtxInputs
            ++ ["destination_latitude", "destination_longitude"] :=
  ⟨rfl, rfl, rfl⟩

/-- C2: in `Model.predict` the candidate representation comes from the prefix
encoder's apply (`pe`): the output coincides with the two-encoder pipeline in
which the candidate-encoder slot is filled by the prefix encoder, and it does
not depend on the candidate encoder `ce` at all. -/
theorem C2_candidate_uses_pfx_encoder {B C R : ℕ} {ctx : Type} (nf : Bool)
    (e sq : ℚ → ℚ) (pe ce ce2 : TrajExample ctx → Vec R)
    (pfx : Fin B → TrajExample ctx) (cand : Fin C → TrajExample ctx) :
    Model.predict nf e sq pe ce pfx cand
        = Model.predictWithEncoders nf e sq pe pe pfx cand ∧
    Model.predict nf e sq pe ce pfx cand = Model.predict nf e sq pe ce2 pfx cand := by
  constructor
  · funext b i
    unfold Model.predict Model.predictWithEncoders Model.similarity
      Model.similarity_score Model.pfx_representation Model.candidate_representation
      Model.normalizeRows Model.candidate_representation_raw
    cases nf <;> rfl
  · rfl

/-- C4: each row of the attention distribution (`similarity`, the row softmax
of the similarity scores) sums to 1, for a positive exponential and a
nonempty candidate batch. -/
theorem C4_attention_rows_sum_to_one {B C R : ℕ} {ctx : Type} (nf : Bool)
    (e sq : ℚ → ℚ) (pe : TrajExample ctx → Vec R)
    (pfx : Fin B → TrajExample ctx) (cand : Fin C → TrajExample ctx)
    (hC : 0 < C) (he : ∀ y : ℚ, 0 < e y) (b : Fin B) :
    ∑ c, Model.similarity nf e sq pe pfx cand b c = 1 :=
  Softmax.sum_apply e _ he hC

/-- C4 witness: a concrete one-prefix, one-candidate batch. -/
theorem C4_witness :
    0 < 1 ∧ (∀ y : ℚ, 0 < oneFun y) ∧
    ∑ c, Model.similarity false oneFun id zeroEnc
        (fun _ : Fin 1 => exW) (fun _ : Fin 1 => exW) 0 c = 1 :=
  ⟨Nat.one_pos, fun _ => one_pos,
   C4_attention_rows_sum_to_one false oneFun id zeroEnc
     (fun _ => exW) (fun _ => exW) Nat.one_pos (fun _ => one_pos) 0⟩

/-- C3: every coordinate of the predicted destination lies between the
minimum and the maximum of that coordinate over the extracted candidate
destinations (the prediction is a convex combination via softmax weights). -/
theorem C3_convex_hull {B C R : ℕ} {ctx : Type} (nf : Bool) (e sq : ℚ → ℚ)
    (pe ce : TrajExample ctx → Vec R)
    (pfx : Fin B → TrajExample ctx) (cand : Fin C → TrajExample ctx)
    (hne : (Finset.univ : Finset (Fin C)).Nonempty) (he : ∀ y : ℚ, 0 < e y)
    (b : Fin B) (i : Fin 2) :
    Finset.univ.inf' hne (fun c => Model.candidate_destination cand c i)
        ≤ Model.predict nf e sq pe ce pfx cand b i ∧
    Model.predict nf e sq pe ce pfx cand b i
        ≤ Finset.univ.sup' hne (fun c => Model.candidate_destination cand c i) := by
  have hC : 0 < C := hne.elim fun c0 _ => c0.pos
  have hsum : ∑ c, Model.similarity nf e sq pe pfx cand b c = 1 :=
    Softmax.sum_apply e _ he hC
  have hnn : ∀ c, 0 ≤ Model.similarity nf e sq pe pfx cand b c :=
    fun c => Softmax.apply_nonneg e _ he c
  constructor
  · have step : ∑ c, Model.similarity nf e sq pe pfx cand b c
          * Finset.univ.inf' hne (fun c2 => Model.candidate_destination cand c2 i)
        ≤ ∑ c, Model.similarity nf e sq pe pfx cand b c
          * Model.candidate_destination cand c i :=
      Finset.sum_le_sum fun c _ =>
        mul_le_mul_of_nonneg_left (Finset.inf'_le _ (Finset.mem_univ c)) (hnn c)
    rw [← Finset.sum_mul, hsum, one_mul] at step
    exact step
  · have step : ∑ c, Model.similarity nf e sq pe pfx cand b c
          * Model.candidate_destination cand c i
        ≤ ∑ c, Model.similarity nf e sq pe pfx cand b c
          * Finset.univ.sup' hne (fun c2 => Model.candidate_destination cand c2 i) :=
      Finset.sum_le_sum fun c _ =>
        mul_le_mul_of_nonneg_left
          (Finset.le_sup' (fun c2 => Model.candidate_destination cand c2 i)
            (Finset.mem_univ c)) (hnn c)
    rw [← Finset.sum_mul, hsum, one_mul] at step
    exact step

/-- C3 witness: a concrete one-prefix, one-candidate batch. -/
theorem C3_witness :
    (∀ y : ℚ, 0 < oneFun y) ∧
    (Finset.univ.inf' ⟨0, Finset.mem_univ 0⟩
        (fun c : Fin 1 => Model.candidate_destination (fun _ => exW) c 0)
      ≤ Model.predict false oneFun id zeroEnc zeroEnc
          (fun _ : Fin 1 => exW) (fun _ : Fin 1 => exW) 0 0 ∧
     Model.predict false oneFun id zeroEnc zeroEnc
          (fun _ : Fin 1 => exW) (fun _ : Fin 1 => exW) 0 0
      ≤ Finset.univ.sup' ⟨0, Finset.mem_univ 0⟩
          (fun c : Fin 1 => Model.candidate_destination (fun _ => exW) c 0)) :=
  ⟨fun _ => one_pos,
   C3_convex_hull false oneFun id zeroEnc zeroEnc (fun _ => exW) (fun _ => exW)
     ⟨0, Finset.mem_univ 0⟩ (fun _ => one_pos) 0 0⟩

/-- C5: with `normalize_representation` enabled, every candidate whose raw
representation vector is nonzero has a scoring representation of unit L2 norm
(sum of squares 1), provided the abstract square root is exact at the squared
norm. -/
theorem C5_normalized_norm_one {C R : ℕ} {ctx : Type} (sq : ℚ → ℚ)
    (pe : TrajExample ctx → Vec R) (cand : Fin C → TrajExample ctx) (c : Fin C)
    (hnz : ∃ r, Model.candidate_representation_raw pe cand c r ≠ 0)
    (hsq : sq (∑ j, Model.candidate_representation_raw pe cand c j ^ 2) ^ 2
            = ∑ j, Model.candidate_representation_raw pe cand c j ^ 2) :
    ∑ r, Model.candidate_representation true sq pe cand c r ^ 2 = 1 := by
  obtain ⟨r0, hr0⟩ := hnz
  have hS : 0 < ∑ j, Model.candidate_representation_raw pe cand c j ^ 2 :=
    Finset.sum_pos'
      (fun j _ => sq_nonneg _)
      ⟨r0, Finset.mem_univ r0,
        lt_of_le_of_ne (sq_nonneg _) (Ne.symm (pow_ne_zero 2 hr0))⟩
  have hsq0 : sq (∑ j, Model.candidate_representation_raw pe cand c j ^ 2) ≠ 0 := by
    intro h0
    rw [h0] at hsq
    norm_num at hsq
    exact hS.ne' hsq.symm
  have hrepr : Model.candidate_representation true sq pe cand c
      = fun r => Model.candidate_representation_raw pe cand c r
          / sq (∑ j, Model.candidate_representation_raw pe cand c j ^ 2) := by
    simp [Model.candidate_representation]
    rfl
  rw [hrepr]
  have : ∑ r, (Model.candidate_representation_raw pe cand c r
        / sq (∑ j, Model.candidate_representation_raw pe cand c j ^ 2)) ^ 2
      = (∑ r, Model.candidate_representation_raw pe cand c r ^ 2)
        / sq (∑ j, Model.candidate_representation_raw pe cand c j ^ 2) ^ 2 := by
    rw [Finset.sum_div]
    exact Finset.sum_congr rfl fun r _ => div_pow _ _ 2
  rw [this, hsq]
  exact div_self hS.ne'

/-- C5 witness: a concrete candidate with representation (3) and an exact
square root at 9. -/
theorem C5_witness :
    (∃ r, Model.candidate_representation_raw wEnc c10cand 0 r ≠ 0) ∧
    c10sq (∑ j, Model.candidate_representation_raw wEnc c10cand 0 j ^ 2) ^ 2
      = ∑ j, Model.candidate_representation_raw wEnc c10cand 0 j ^ 2 ∧
    ∑ r, Model.candidate_representation true c10sq wEnc c10cand 0 r ^ 2 = 1 :=
  ⟨⟨0, by norm_num [Model.candidate_representation_raw, wEnc, c10cand, thGet]⟩,
   by norm_num [Model.candidate_representation_raw, wEnc, c10cand, c10sq, thGet,
     Fin.sum_univ_one],
   C5_normalized_norm_one c10sq wEnc c10cand 0
     ⟨0, by norm_num [Model.candidate_representation_raw, wEnc, c10cand, thGet]⟩
     (by norm_num [Model.candidate_representation_raw, wEnc, c10cand, c10sq, thGet,
       Fin.sum_univ_one])⟩

/-- C6: for a batch of 2 prefixes and 3 candidates with a constant similarity
score matrix, the predicted destination of each prefix is the unweighted mean
of the 3 candidate destinations. -/
theorem C6_uniform_attention_mean {R : ℕ} {ctx : Type} (nf : Bool) (e sq : ℚ → ℚ)
    (pe ce : TrajExample ctx → Vec R)
    (pfx : Fin 2 → TrajExample ctx) (cand : Fin 3 → TrajExample ctx)
    (he : ∀ y : ℚ, 0 < e y)
    (hu : ∀ (b b2 : Fin 2) (c c2 : Fin 3),
        Model.similarity_score nf sq pe pfx cand b c
          = Model.similarity_score nf sq pe pfx cand b2 c2)
    (b : Fin 2) (i : Fin 2) :
    Model.predict nf e sq pe ce pfx cand b i
      = (∑ c, Model.candidate_destination cand c i) / 3 := by
  have hsim : ∀ c, Model.similarity nf e sq pe pfx cand b c = 1 / 3 := by
    intro c
    unfold Model.similarity Softmax.apply
    have hsumeq : ∑ k, e (Model.similarity_score nf sq pe pfx cand b k)
        = 3 * e (Model.similarity_score nf sq pe pfx cand b c) := by
      rw [Finset.sum_congr rfl fun k _ => by rw [hu b b k c]]
      rw [Finset.sum_const, Finset.card_univ, Fintype.card_fin, nsmul_eq_mul]
      norm_num
    rw [hsumeq]
    have h0 : e (Model.similarity_score nf sq pe pfx cand b c) ≠ 0 := (he _).ne'
    rw [div_eq_div_iff (mul_ne_zero three_ne_zero h0) three_ne_zero]
    ring
  unfold Model.predict
  rw [Finset.sum_congr rfl fun c _ => by rw [hsim c]]
  rw [← Finset.mul_sum]
  ring

/-- C6 witness: zero representations give a constant (zero) score matrix;
the three concrete candidate destinations 1, 2, 6 average to 3. -/
theorem C6_witness :
    (∀ y : ℚ, 0 < oneFun y) ∧
    (∀ (b b2 : Fin 2) (c c2 : Fin 3),
        Model.similarity_score false id zeroEnc (fun _ : Fin 2 => exW) cand3 b c
          = Model.similarity_score false id zeroEnc (fun _ : Fin 2 => exW) cand3 b2 c2) ∧
    Model.predict false oneFun id zeroEnc zeroEnc (fun _ : Fin 2 => exW) cand3 0 0
      = (∑ c, Model.candidate_destination cand3 c 0) / 3 ∧
    (∑ c, Model.candidate_destination cand3 c 0) / 3 = 3 :=
  ⟨fun _ => one_pos,
   fun b b2 c c2 => by
     simp [Model.similarity_score, Model.pfx_representation, zeroEnc],
   C6_uniform_attention_mean false oneFun id zeroEnc zeroEnc (fun _ : Fin 2 => exW) cand3
     (fun _ => one_pos)
     (fun b b2 c c2 => by
       simp [Model.similarity_score, Model.pfx_representation, zeroEnc]) 0 0,
   by norm_num [Model.candidate_destination, Model.candidate_last, cand3, thGet,
     toInt64, Fin.sum_univ_succ]⟩

/-- C9: `Model.predict` is invariant under any permutation of the candidate
batch (applied simultaneously to all candidate arrays and context). -/
theorem C9_candidate_permutation_invariance {B C R : ℕ} {ctx : Type} (nf : Bool)
    (e sq : ℚ → ℚ) (pe ce : TrajExample ctx → Vec R)
    (pfx : Fin B → TrajExample ctx) (cand : Fin C → TrajExample ctx)
    (π : Equiv.Perm (Fin C)) :
    Model.predict nf e sq pe ce pfx (fun c => cand (π c))
      = Model.predict nf e sq pe ce pfx cand := by
  have hrep : ∀ c, Model.candidate_representation nf sq pe (fun c2 => cand (π c2)) c
      = Model.candidate_representation nf sq pe cand (π c) := by
    intro c
    cases nf <;> rfl
  have hscore : ∀ (b : Fin B) (c : Fin C),
      Model.similarity_score nf sq pe pfx (fun c2 => cand (π c2)) b c
        = Model.similarity_score nf sq pe pfx cand b (π c) := by
    intro b c
    unfold Model.similarity_score
    simp only [hrep]
  have hdest : ∀ c, Model.candidate_destination (fun c2 => cand (π c2)) c
      = Model.candidate_destination cand (π c) := fun c => rfl
  funext b i
  have hsim : ∀ c, Model.similarity nf e sq pe pfx (fun c2 => cand (π c2)) b c
      = Model.similarity nf e sq pe pfx cand b (π c) := by
    intro c
    unfold Model.similarity Softmax.apply
    rw [hscore b c]
    congr 1
    rw [Finset.sum_congr rfl fun k _ => by rw [hscore b k]]
    exact Equiv.sum_comp π (fun k => e (Model.similarity_score nf sq pe pfx cand b k))
  show ∑ c, Model.similarity nf e sq pe pfx (fun c2 => cand (π c2)) b c
      * Model.candidate_destination (fun c2 => cand (π c2)) c i
    = Model.predict nf e sq pe ce pfx cand b i
  rw [Finset.sum_congr rfl fun c _ => by rw [hsim c, hdest c]]
  exact Equiv.sum_comp π (fun c => Model.similarity nf e sq pe pfx cand b c
    * Model.candidate_destination cand c i)

/-- C10: with `normalize_representation` enabled, the similarity score is the
dot product of the RAW (unnormalized) prefix representation with the
normalized candidate representation; concretely (representations (2) and (3))
this gives 2, while the symmetric cosine similarity would give 1. -/
theorem C10_only_candidates_normalized {B C R : ℕ} {ctx : Type} (sq : ℚ → ℚ)
    (pe : TrajExample ctx → Vec R)
    (pfx : Fin B → TrajExample ctx) (cand : Fin C → TrajExample ctx) :
    (∀ (b : Fin B) (c : Fin C),
        Model.similarity_score true sq pe pfx cand b c
          = ∑ r, Model.pfx_representation pe pfx b r
              * (Model.candidate_representation_raw pe cand c r
                  / sq (∑ j, Model.candidate_representation_raw pe cand c j ^ 2))) ∧
    Model.similarity_score true c10sq wEnc c10pfx c10cand 0 0 = 2 ∧
    Model.cosine_similarity_score c10sq wEnc c10pfx c10cand 0 0 = 1 := by
  refine ⟨fun b c => rfl, ?_, ?_⟩
  · norm_num [Model.similarity_score, Model.pfx_representation,
      Model.candidate_representation, Model.normalizeRows,
      Model.candidate_representation_raw, wEnc, c10pfx, c10cand, c10sq,
      thGet, Fin.sum_univ_one]
  · norm_num [Model.cosine_similarity_score, Model.pfx_representation,
      Model.candidate_representation_raw, wEnc, c10pfx, c10cand, c10sq, thGet,
      Fin.sum_univ_one]
